import Mathlib

/-!
Verification of the `learn-iterator` library: a generic sequence container
(`Vec`), a read-only cursor (`VecIterator`), an exclusive cursor implemented by
pointer arithmetic (`VecMutIterator`), and a pull-based iteration trait with
derived combinators (`filter`, `find`, `map`, `fold`) and adapter cursors
(`Filter`, `MapIter`).

Embedding conventions:
- Rust's `&mut self` methods become explicit state passing: `next` has type
  `σ → Option α × σ` (result of the call, state afterwards).
- The backing buffer of `Vec<T>` (`std::vec::Vec<T>`) is a `List`.
- Raw addresses inside `VecMutIterator` are modelled as element offsets from
  the buffer base (`ptr.add(1)` is `+ 1`); the buffer the pointers point into
  is carried alongside so that dereferencing can be expressed.  An exclusive
  reference handed out by the cursor is modelled by the address it points to;
  writing through it updates the buffer at that offset.
- The `Iterator` trait's derived methods contain `while let` loops that pull
  an arbitrary upstream cursor, so an upstream cursor is modelled as a step
  function together with a termination measure (`size`) that strictly
  decreases whenever a call produces an item; every cursor of this library
  yields finitely many items, so each admits such a measure.
-/

namespace LearnIter

/-- The container: `pub struct Vec<T> { vec: std::vec::Vec<T> }`. -/
structure Vec (α : Type) where
  vec : List α

/-- Rust `Vec::new`: the empty container. -/
def Vec.new {α : Type} : Vec α := ⟨[]⟩

/-- Rust `Vec::add`: `self.vec.push(value)` appends at the end. -/
def Vec.add {α : Type} (v : Vec α) (value : α) : Vec α :=
  ⟨v.vec ++ [value]⟩

/-- Rust `new()` followed by `add(e1), ..., add(en)` in order. -/
def buildVec {α : Type} (es : List α) : Vec α :=
  es.foldl Vec.add Vec.new

/-- Rust `pub struct VecIterator<'a, T> { vec: &'a Vec<T>, idx: usize }`. -/
structure VecIterator (α : Type) where
  vec : Vec α
  idx : Nat

/-- Rust `Vec::iter`: `VecIterator { vec: &self, idx: 0 }`. -/
def Vec.iter {α : Type} (v : Vec α) : VecIterator α :=
  ⟨v, 0⟩

/-- Rust `VecIterator::next`: if `idx >= vec.vec.len()` return `None`, else return
`Some(&vec.vec[idx])` and increment `idx`.  A yielded `&T` is modelled by the
element value it refers to. -/
def VecIterator.next {α : Type} (it : VecIterator α) : Option α × VecIterator α :=
  if h : it.vec.vec.length ≤ it.idx then (none, it)
  else (some (it.vec.vec.get ⟨it.idx, by omega⟩), { it with idx := it.idx + 1 })

/-- Rust `pub struct VecMutIterator<'a, T> { ptr: *const T, end: *const T, ... }`.
`ptr` and `endp` (the source's `end`) are element offsets from the buffer base;
`buf` is the buffer the raw pointers point into, carried for dereferencing. -/
structure VecMutIterator (α : Type) where
  buf : List α
  ptr : Nat
  endp : Nat

/-- Rust `VecMutIterator::new`: `ptr = v.vec.as_mut_ptr()`, `end = ptr.add(v.vec.len())`.
In offsets from the base: `ptr = 0`, `end = len`. -/
def VecMutIterator.new {α : Type} (v : Vec α) : VecMutIterator α :=
  ⟨v.vec, 0, v.vec.length⟩

/-- Rust `Vec::iter_mut`: `VecMutIterator::new(self)`. -/
def Vec.iter_mut {α : Type} (v : Vec α) : VecMutIterator α :=
  VecMutIterator.new v

/-- Rust `VecMutIterator::next`: if `ptr == end` return `None`, else yield the
exclusive reference at `ptr` (modelled by the address) and advance `ptr` by
one element width. -/
def VecMutIterator.next {α : Type} (it : VecMutIterator α) : Option Nat × VecMutIterator α :=
  if it.ptr = it.endp then (none, it)
  else (some it.ptr, { it with ptr := it.ptr + 1 })

/-- Dereference (read) through an address handed out by the exclusive cursor. -/
def VecMutIterator.read {α : Type} (it : VecMutIterator α) (a : Nat) : Option α :=
  it.buf[a]?

/-- A write `*reference = x` through an exclusive reference at offset `a`
updates the container's buffer at that offset. -/
def Vec.writeAt {α : Type} (v : Vec α) (a : Nat) (x : α) : Vec α :=
  ⟨v.vec.set a x⟩

/-- The results of the first `k` calls to `next` (given as a step function),
in order. -/
def outputsOf {σ α : Type} (nx : σ → Option α × σ) : σ → Nat → List (Option α)
  | _, 0 => []
  | s, k + 1 => (nx s).1 :: outputsOf nx (nx s).2 k

/-- The cursor state after `k` calls to `next`. -/
def stateAfter {σ α : Type} (nx : σ → Option α × σ) : σ → Nat → σ
  | s, 0 => s
  | s, k + 1 => stateAfter nx (nx s).2 k

/-- The `Iterator` trait: a cursor with state type `σ` yielding items of type
`α`.  `next` is the single required primitive (explicit state passing for
`&mut self`).  `size` is a termination measure with `size_lt`: it strictly
decreases whenever a call yields an item, so the trait's `while let` loops
terminate; every cursor of this library yields finitely many items, so each
admits such a measure. -/
structure Iter (σ α : Type) where
  next : σ → Option α × σ
  size : σ → Nat
  size_lt : ∀ s a s1, next s = (some a, s1) → size s1 < size s

/-- A cursor with an idempotent exhausted state: a `next` call that returns
`None` leaves the state unchanged.  Both built-in cursors of the library
satisfy this. -/
def Iter.Fused {σ α : Type} (I : Iter σ α) : Prop :=
  ∀ s, (I.next s).1 = none → (I.next s).2 = s

/-- Rust `Filter::next`: `while let Some(v) = self.iter.next() { if predicate(&v)
{ return Some(v) } } None`.  The adapter's state is the wrapped cursor's
state; the predicate is a fixed parameter. -/
def Filter.next {σ α : Type} (I : Iter σ α) (p : α → Bool) (s : σ) :
    Option α × σ :=
  match h : I.next s with
  | (none, s1) => (none, s1)
  | (some v, s1) => if p v then (some v, s1) else Filter.next I p s1
termination_by I.size s
decreasing_by exact I.size_lt s v s1 h

/-- Rust `MapIter::next`: `self.iter.next().map(&mut self.predicator)`. -/
def MapIter.next {σ α β : Type} (I : Iter σ α) (f : α → β) (s : σ) :
    Option β × σ :=
  match I.next s with
  | (none, s1) => (none, s1)
  | (some v, s1) => (some (f v), s1)

/-- Rust `Iterator::find`: `while let Some(n) = self.next() { if predicator(&n)
{ return Some(n) } } None`; the cursor (state) is taken by `&mut`, so the
state after the call is returned alongside the result. -/
def Iterator.find {σ α : Type} (I : Iter σ α) (p : α → Bool) (s : σ) :
    Option α × σ :=
  match h : I.next s with
  | (none, s1) => (none, s1)
  | (some n, s1) => if p n then (some n, s1) else Iterator.find I p s1
termination_by I.size s
decreasing_by exact I.size_lt s n s1 h

/-- Rust `Iterator::fold`: `let mut accum = init; while let Some(x) = self.next()
{ accum = f(accum, x); } accum`. -/
def Iterator.fold {σ α β : Type} (I : Iter σ α) (init : β) (f : β → α → β)
    (s : σ) : β :=
  match h : I.next s with
  | (none, _) => init
  | (some x, s1) => Iterator.fold I (f init x) f s1
termination_by I.size s
decreasing_by exact I.size_lt s x s1 h

/-- The items a cursor yields, in order, up to its first exhaustion. -/
def Iter.toList {σ α : Type} (I : Iter σ α) (s : σ) : List α :=
  match h : I.next s with
  | (none, _) => []
  | (some a, s1) => a :: Iter.toList I s1
termination_by I.size s
decreasing_by exact I.size_lt s a s1 h

/-- Rust `Iterator::filter`: `Filter::new(self, predicator)`, itself a cursor.
The bundled measure is the upstream's own: a `Filter::next` call that yields
an item makes at least one upstream call that yields an item. -/
def Iterator.filter {σ α : Type} (I : Iter σ α) (p : α → Bool) : Iter σ α where
  next := Filter.next I p
  size := I.size
  size_lt := by
    have hnone : ∀ {s s1 : σ}, I.next s = (none, s1) →
        Filter.next I p s = (none, s1) := by
      intro s s1 h
      rw [Filter.next.eq_def]
      split
      · rename_i s2 hx
        rw [← hx, h]
      · rename_i v s2 hx
        rw [h] at hx
        simp at hx
    have hpos : ∀ {s s1 : σ} {v : α}, I.next s = (some v, s1) → p v →
        Filter.next I p s = (some v, s1) := by
      intro s s1 v h hp
      rw [Filter.next.eq_def]
      split
      · rename_i s2 hx
        rw [h] at hx
        simp at hx
      · rename_i w s2 hx
        rw [h] at hx
        simp only [Prod.mk.injEq, Option.some.injEq] at hx
        obtain ⟨hv, hs⟩ := hx
        subst hv
        subst hs
        rw [if_pos hp]
    have hneg : ∀ {s s1 : σ} {v : α}, I.next s = (some v, s1) → ¬ p v →
        Filter.next I p s = Filter.next I p s1 := by
      intro s s1 v h hp
      rw [Filter.next.eq_def]
      split
      · rename_i s2 hx
        rw [h] at hx
        simp at hx
      · rename_i w s2 hx
        rw [h] at hx
        simp only [Prod.mk.injEq, Option.some.injEq] at hx
        obtain ⟨hv, hs⟩ := hx
        subst hv
        subst hs
        rw [if_neg hp]
    intro s
    induction s using Filter.next.induct I p with
    | case1 x s2 hx =>
      intro a s1 heq
      rw [hnone hx] at heq
      simp at heq
    | case2 x v s2 hx hpv =>
      intro a s1 heq
      rw [hpos hx hpv] at heq
      simp only [Prod.mk.injEq, Option.some.injEq] at heq
      obtain ⟨hv, hs⟩ := heq
      subst hs
      exact I.size_lt _ _ _ hx
    | case3 x v s2 hx hpv ih =>
      intro a s1 heq
      rw [hneg hx hpv] at heq
      exact lt_trans (ih a s1 heq) (I.size_lt _ _ _ hx)

/-- Rust `Iterator::map`: `MapIter::new(self, predicator)`, itself a cursor. -/
def Iterator.map {σ α β : Type} (I : Iter σ α) (f : α → β) : Iter σ β where
  next := MapIter.next I f
  size := I.size
  size_lt := by
    intro s b s1 heq
    have h2 : MapIter.next I f s = (Option.map f (I.next s).1, (I.next s).2) := by
      unfold MapIter.next
      rcases I.next s with ⟨o, s2⟩
      cases o <;> rfl
    rw [h2] at heq
    rcases hx : I.next s with ⟨o, s2⟩
    rw [hx] at heq
    cases o with
    | none => simp at heq
    | some v =>
      simp only [Prod.mk.injEq, Option.map_some, Option.some.injEq] at heq
      obtain ⟨hv, hs⟩ := heq
      subst hs
      exact I.size_lt _ _ _ hx

/-- The library's `VecIterator` as an instance of the iteration trait. -/
def vecIter (α : Type) : Iter (VecIterator α) α where
  next := VecIterator.next
  size it := it.vec.vec.length - it.idx
  size_lt := by
    intro s a s1 h
    unfold VecIterator.next at h
    by_cases hc : s.vec.vec.length ≤ s.idx
    · rw [dif_pos hc] at h
      simp at h
    · rw [dif_neg hc] at h
      simp only [Prod.mk.injEq, Option.some.injEq] at h
      obtain ⟨hv, hs⟩ := h
      subst hs
      simp
      omega

theorem buildVec_vec {α : Type} (es : List α) : (buildVec es).vec = es := by
  suffices h : ∀ (v : Vec α), (es.foldl Vec.add v).vec = v.vec ++ es by
    simpa [buildVec, Vec.new] using h ⟨[]⟩
  induction es with
  | nil => intro v; simp
  | cons e t ih => intro v; simp [Vec.add, ih]

theorem readOutputs_eq {α : Type} (k : Nat) (v : Vec α) (i : Nat) :
    outputsOf VecIterator.next ⟨v, i⟩ k =
      (((v.vec.drop i).map some) ++
        List.replicate (k - (v.vec.length - i)) (none : Option α)).take k := by
  induction k generalizing i with
  | zero => simp [outputsOf]
  | succ k ih =>
    by_cases h : v.vec.length ≤ i
    · have hdrop : v.vec.drop i = [] := List.drop_eq_nil_of_le h
      have hsub : v.vec.length - i = 0 := by omega
      simp only [outputsOf, VecIterator.next, dif_pos h, hdrop, hsub]
      rw [ih i]
      simp [hdrop, hsub, List.take_replicate, Nat.min_self, List.replicate_succ]
    · push_neg at h
      have hdrop : v.vec.drop i = v.vec.get ⟨i, h⟩ :: v.vec.drop (i + 1) := by
        rw [List.drop_eq_getElem_cons h]
        simp
      have hcnt : k + 1 - (v.vec.length - i) = k - (v.vec.length - (i + 1)) := by
        omega
      simp only [outputsOf, VecIterator.next, dif_neg (by omega : ¬ v.vec.length ≤ i)]
      rw [ih (i + 1), hdrop, hcnt]
      simp only [List.map_cons, List.cons_append, List.take_succ_cons]

theorem mutOutputs_eq {α : Type} (k : Nat) (buf : List α) (p e : Nat) (hpe : p ≤ e) :
    outputsOf VecMutIterator.next ⟨buf, p, e⟩ k =
      (((List.range' p (e - p)).map some) ++
        List.replicate (k - (e - p)) (none : Option Nat)).take k := by
  induction k generalizing p with
  | zero => simp [outputsOf]
  | succ k ih =>
    by_cases h : p = e
    · have hsub : e - p = 0 := by omega
      simp only [outputsOf, VecMutIterator.next, if_pos h, hsub]
      rw [ih p hpe]
      simp [hsub, List.take_replicate, Nat.min_self, List.replicate_succ]
    · have hlt : p < e := by omega
      obtain ⟨n, hn⟩ : ∃ n, e - p = n + 1 := ⟨e - (p + 1), by omega⟩
      have hn' : e - (p + 1) = n := by omega
      have hcnt : k + 1 - (n + 1) = k - n := by omega
      simp only [outputsOf, VecMutIterator.next, if_neg h]
      rw [ih (p + 1) (by omega), hn, hn', hcnt, List.range'_succ]
      simp only [List.map_cons, List.cons_append, List.take_succ_cons]

theorem mutStateAfter_eq {α : Type} (k : Nat) (buf : List α) (p e : Nat) (hpe : p ≤ e) :
    stateAfter VecMutIterator.next ⟨buf, p, e⟩ k = ⟨buf, min (p + k) e, e⟩ := by
  induction k generalizing p with
  | zero => simp [stateAfter]; omega
  | succ k ih =>
    by_cases h : p = e
    · simp only [stateAfter, VecMutIterator.next, if_pos h]
      rw [ih p hpe]
      have : min (p + k) e = min (p + (k + 1)) e := by omega
      rw [this]
    · simp only [stateAfter, VecMutIterator.next, if_neg h]
      rw [ih (p + 1) (by omega)]
      have : min (p + 1 + k) e = min (p + (k + 1)) e := by omega
      rw [this]

theorem readStateAfter_eq {α : Type} (k : Nat) (v : Vec α) (i : Nat)
    (hi : i ≤ v.vec.length) :
    stateAfter VecIterator.next ⟨v, i⟩ k = ⟨v, min (i + k) v.vec.length⟩ := by
  induction k generalizing i with
  | zero => simp [stateAfter]; omega
  | succ k ih =>
    by_cases h : v.vec.length ≤ i
    · simp only [stateAfter, VecIterator.next, dif_pos h]
      rw [ih i hi]
      have : min (i + k) v.vec.length = min (i + (k + 1)) v.vec.length := by omega
      rw [this]
    · simp only [stateAfter, VecIterator.next, dif_neg h]
      rw [ih (i + 1) (by omega)]
      have : min (i + 1 + k) v.vec.length = min (i + (k + 1)) v.vec.length := by omega
      rw [this]

theorem readIter_exhausted_forever {α : Type} (it : VecIterator α)
    (h : it.vec.vec.length ≤ it.idx) :
    ∀ j, outputsOf VecIterator.next it j = List.replicate j none := by
  intro j
  induction j with
  | zero => simp [outputsOf]
  | succ j ih =>
    simp only [outputsOf, VecIterator.next, dif_pos h]
    rw [ih, List.replicate_succ]

theorem mutIter_exhausted_forever {α : Type} (it : VecMutIterator α)
    (h : it.ptr = it.endp) :
    ∀ j, outputsOf VecMutIterator.next it j = List.replicate j none := by
  intro j
  induction j with
  | zero => simp [outputsOf]
  | succ j ih =>
    simp only [outputsOf, VecMutIterator.next, if_pos h]
    rw [ih, List.replicate_succ]

theorem filterMap_id_map_some {α : Type} (L : List α) :
    List.filterMap id (L.map some) = L := by
  induction L with
  | nil => simp
  | cons a t ih => simp [List.filterMap_cons, ih]

theorem filterMap_id_replicate_none {α : Type} (n : Nat) :
    List.filterMap id (List.replicate n (none : Option α)) = [] := by
  induction n with
  | zero => simp
  | succ n ih => simp [List.replicate_succ, List.filterMap_cons, ih]

theorem filterMap_id_take_padded {α : Type} (L : List α) (m k : Nat) :
    List.filterMap id ((L.map some ++ List.replicate m (none : Option α)).take k) =
      L.take k := by
  rw [List.take_append_eq_append_take, List.filterMap_append, List.take_replicate,
    ← List.map_take, filterMap_id_map_some, filterMap_id_replicate_none,
    List.append_nil]

theorem mutOutputs_full {α : Type} (v : Vec α) :
    outputsOf VecMutIterator.next v.iter_mut v.vec.length =
      (List.range v.vec.length).map some := by
  have h := mutOutputs_eq v.vec.length v.vec 0 v.vec.length (Nat.zero_le _)
  rw [show v.iter_mut = (⟨v.vec, 0, v.vec.length⟩ : VecMutIterator α) from rfl, h]
  simp [← List.range_eq_range', List.take_of_length_le]

/-- C1: a container built by `new()` then `add(e1), ..., add(en)` in order has a
read-only cursor that yields `e1..en` in order via successive `next()` calls,
and every call after the n-th returns `None`: the first `k` results are always
`some e1, ..., some en` padded with `none`. -/
theorem readCursor_yields_added_elements_in_order {α : Type} (es : List α) (k : Nat) :
    outputsOf VecIterator.next (buildVec es).iter k =
      ((es.map some) ++ List.replicate (k - es.length) (none : Option α)).take k := by
  have h := readOutputs_eq k (buildVec es) 0
  simpa [Vec.iter, buildVec_vec] using h

/-- C2: over any number of `next()` calls, the exclusive cursor hands out
pairwise distinct addresses (no overlapping or previously-issued references),
every address handed out is strictly below the container's length at cursor
creation, and the current pointer never advances past `end`. -/
theorem mutCursor_refs_distinct_and_in_bounds {α : Type} (v : Vec α) (k : Nat) :
    ((outputsOf VecMutIterator.next v.iter_mut k).filterMap id).Nodup ∧
    (∀ a ∈ (outputsOf VecMutIterator.next v.iter_mut k).filterMap id,
      a < v.vec.length) ∧
    (stateAfter VecMutIterator.next v.iter_mut k).ptr ≤
      (stateAfter VecMutIterator.next v.iter_mut k).endp := by
  have hout : outputsOf VecMutIterator.next v.iter_mut k =
      ((List.range v.vec.length).map some ++
        List.replicate (k - v.vec.length) (none : Option Nat)).take k := by
    have h := mutOutputs_eq k v.vec 0 v.vec.length (Nat.zero_le _)
    rw [show v.iter_mut = (⟨v.vec, 0, v.vec.length⟩ : VecMutIterator α) from rfl, h]
    simp [← List.range_eq_range']
  have hfm : (outputsOf VecMutIterator.next v.iter_mut k).filterMap id =
      (List.range v.vec.length).take k := by
    rw [hout, filterMap_id_take_padded]
  refine ⟨?_, ?_, ?_⟩
  · rw [hfm]
    exact (List.take_sublist _ _).nodup (List.nodup_range _)
  · intro a ha
    rw [hfm] at ha
    exact List.mem_range.mp (List.mem_of_mem_take ha)
  · have h := mutStateAfter_eq k v.vec 0 v.vec.length (Nat.zero_le _)
    rw [show v.iter_mut = (⟨v.vec, 0, v.vec.length⟩ : VecMutIterator α) from rfl, h]
    simp

theorem mutCursor_refs_distinct_and_in_bounds_witness :
    ((outputsOf VecMutIterator.next (⟨[10, 20]⟩ : Vec Nat).iter_mut 3).filterMap
      id).Nodup ∧
    (0 : Nat) < (⟨[10, 20]⟩ : Vec Nat).vec.length ∧
    (stateAfter VecMutIterator.next (⟨[10, 20]⟩ : Vec Nat).iter_mut 3).ptr ≤
      (stateAfter VecMutIterator.next (⟨[10, 20]⟩ : Vec Nat).iter_mut 3).endp := by
  obtain ⟨h1, h2, h3⟩ := mutCursor_refs_distinct_and_in_bounds (⟨[10, 20]⟩ : Vec Nat) 3
  exact ⟨h1, h2 0 (by decide), h3⟩

/-- C3: the exclusive cursor yields the addresses of elements `0..n-1` in
order (one exclusive reference per element); after writing `x` through the
reference for element `i`, a fresh cursor created afterwards yields the same
address `i` at step `i` and dereferencing it observes the new value `x`. -/
theorem mutCursor_write_then_read {α : Type} (v : Vec α) (i : Nat) (x : α)
    (h : i < v.vec.length) :
    outputsOf VecMutIterator.next v.iter_mut v.vec.length =
      (List.range v.vec.length).map some ∧
    (outputsOf VecMutIterator.next (v.writeAt i x).iter_mut
        (v.writeAt i x).vec.length)[i]? = some (some i) ∧
    VecMutIterator.read ((v.writeAt i x).iter_mut) i = some x := by
  have hlen : (v.writeAt i x).vec.length = v.vec.length := by
    simp [Vec.writeAt]
  refine ⟨mutOutputs_full v, ?_, ?_⟩
  · rw [mutOutputs_full (v.writeAt i x), List.getElem?_map,
      List.getElem?_range (by omega : i < (v.writeAt i x).vec.length)]
    rfl
  · simp only [VecMutIterator.read, Vec.iter_mut, VecMutIterator.new, Vec.writeAt]
    exact List.getElem?_set_eq_of_lt x h

theorem mutCursor_write_then_read_witness :
    outputsOf VecMutIterator.next (⟨[1, 2]⟩ : Vec Nat).iter_mut
        (⟨[1, 2]⟩ : Vec Nat).vec.length =
      (List.range (⟨[1, 2]⟩ : Vec Nat).vec.length).map some ∧
    (outputsOf VecMutIterator.next ((⟨[1, 2]⟩ : Vec Nat).writeAt 0 10).iter_mut
        ((⟨[1, 2]⟩ : Vec Nat).writeAt 0 10).vec.length)[0]? = some (some 0) ∧
    VecMutIterator.read (((⟨[1, 2]⟩ : Vec Nat).writeAt 0 10).iter_mut) 0 =
      some 10 :=
  mutCursor_write_then_read (⟨[1, 2]⟩ : Vec Nat) 0 10 (by decide)

/-- C8: over an empty container, the exclusive cursor has
`first_address == end_address` at construction and is immediately exhausted:
every `next()` call, starting from the first, returns `None`. -/
theorem mutCursor_empty_immediately_exhausted {α : Type} (v : Vec α)
    (h : v.vec = []) :
    v.iter_mut.ptr = v.iter_mut.endp ∧
    ∀ k, outputsOf VecMutIterator.next v.iter_mut k = List.replicate k none := by
  have h0 : v.iter_mut.ptr = v.iter_mut.endp := by
    simp [Vec.iter_mut, VecMutIterator.new, h]
  exact ⟨h0, fun k => mutIter_exhausted_forever _ h0 k⟩

theorem mutCursor_empty_immediately_exhausted_witness :
    (Vec.new : Vec Nat).iter_mut.ptr = (Vec.new : Vec Nat).iter_mut.endp ∧
    outputsOf VecMutIterator.next (Vec.new : Vec Nat).iter_mut 2 =
      List.replicate 2 none := by
  have h := mutCursor_empty_immediately_exhausted (Vec.new : Vec Nat) rfl
  exact ⟨h.1, h.2 2⟩

/-- C9: for both built-in cursors, exhaustion is an idempotent terminal state
(once a `next()` returns `None`, every subsequent call does too), and the
read-only cursor's position stays within `0 ≤ position ≤ length` on states
reached from `iter()` and never decreases across a `next()` call. -/
theorem cursor_exhaustion_idempotent_position_monotone {α : Type}
    (it : VecIterator α) (mit : VecMutIterator α) (v : Vec α) (k : Nat)
    (h1 : (VecIterator.next it).1 = none)
    (h2 : (VecMutIterator.next mit).1 = none) :
    (∀ j, outputsOf VecIterator.next (VecIterator.next it).2 j =
      List.replicate j none) ∧
    (∀ j, outputsOf VecMutIterator.next (VecMutIterator.next mit).2 j =
      List.replicate j none) ∧
    (stateAfter VecIterator.next v.iter k).idx ≤ v.vec.length ∧
    (∀ it' : VecIterator α, it'.idx ≤ (VecIterator.next it').2.idx) := by
  have hex : it.vec.vec.length ≤ it.idx := by
    by_contra hc
    simp [VecIterator.next, dif_neg hc] at h1
  have hst1 : (VecIterator.next it).2 = it := by
    simp [VecIterator.next, dif_pos hex]
  have hmex : mit.ptr = mit.endp := by
    by_contra hc
    simp [VecMutIterator.next, if_neg hc] at h2
  have hmst : (VecMutIterator.next mit).2 = mit := by
    simp [VecMutIterator.next, if_pos hmex]
  refine ⟨?_, ?_, ?_, ?_⟩
  · rw [hst1]
    exact readIter_exhausted_forever it hex
  · rw [hmst]
    exact mutIter_exhausted_forever mit hmex
  · have h := readStateAfter_eq k v 0 (Nat.zero_le _)
    rw [show v.iter = (⟨v, 0⟩ : VecIterator α) from rfl, h]
    simp
  · intro it'
    unfold VecIterator.next
    split
    · simp
    · simp

theorem cursor_exhaustion_idempotent_witness :
    outputsOf VecIterator.next
        (VecIterator.next (⟨⟨[]⟩, 0⟩ : VecIterator Nat)).2 3 =
      List.replicate 3 none ∧
    outputsOf VecMutIterator.next
        (VecMutIterator.next (⟨[], 0, 0⟩ : VecMutIterator Nat)).2 3 =
      List.replicate 3 none ∧
    (stateAfter VecIterator.next (⟨[7]⟩ : Vec Nat).iter 2).idx ≤
      (⟨[7]⟩ : Vec Nat).vec.length ∧
    (⟨⟨[7]⟩, 0⟩ : VecIterator Nat).idx ≤
      (VecIterator.next (⟨⟨[7]⟩, 0⟩ : VecIterator Nat)).2.idx := by
  have h := cursor_exhaustion_idempotent_position_monotone
    (⟨⟨[]⟩, 0⟩ : VecIterator Nat) (⟨[], 0, 0⟩ : VecMutIterator Nat)
    (⟨[7]⟩ : Vec Nat) 2 (by decide) (by decide)
  exact ⟨h.1 3, h.2.1 3, h.2.2.1, h.2.2.2 _⟩

theorem Filter.next_none {σ α : Type} (I : Iter σ α) (p : α → Bool) {s s1 : σ}
    (h : I.next s = (none, s1)) : Filter.next I p s = (none, s1) := by
  rw [Filter.next.eq_def]
  split
  · rename_i s2 hx
    rw [← hx, h]
  · rename_i v s2 hx
    rw [h] at hx
    simp at hx

theorem Filter.next_some_pos {σ α : Type} (I : Iter σ α) (p : α → Bool)
    {s s1 : σ} {v : α} (h : I.next s = (some v, s1)) (hp : p v) :
    Filter.next I p s = (some v, s1) := by
  rw [Filter.next.eq_def]
  split
  · rename_i s2 hx
    rw [h] at hx
    simp at hx
  · rename_i w s2 hx
    rw [h] at hx
    simp only [Prod.mk.injEq, Option.some.injEq] at hx
    obtain ⟨hv, hs⟩ := hx
    subst hv
    subst hs
    rw [if_pos hp]

theorem Filter.next_some_neg {σ α : Type} (I : Iter σ α) (p : α → Bool)
    {s s1 : σ} {v : α} (h : I.next s = (some v, s1)) (hp : ¬ p v) :
    Filter.next I p s = Filter.next I p s1 := by
  rw [Filter.next.eq_def]
  split
  · rename_i s2 hx
    rw [h] at hx
    simp at hx
  · rename_i w s2 hx
    rw [h] at hx
    simp only [Prod.mk.injEq, Option.some.injEq] at hx
    obtain ⟨hv, hs⟩ := hx
    subst hv
    subst hs
    rw [if_neg hp]

theorem Iterator.find_none {σ α : Type} (I : Iter σ α) (p : α → Bool) {s s1 : σ}
    (h : I.next s = (none, s1)) : Iterator.find I p s = (none, s1) := by
  rw [Iterator.find.eq_def]
  split
  · rename_i s2 hx
    rw [← hx, h]
  · rename_i v s2 hx
    rw [h] at hx
    simp at hx

theorem Iterator.find_some_pos {σ α : Type} (I : Iter σ α) (p : α → Bool)
    {s s1 : σ} {v : α} (h : I.next s = (some v, s1)) (hp : p v) :
    Iterator.find I p s = (some v, s1) := by
  rw [Iterator.find.eq_def]
  split
  · rename_i s2 hx
    rw [h] at hx
    simp at hx
  · rename_i w s2 hx
    rw [h] at hx
    simp only [Prod.mk.injEq, Option.some.injEq] at hx
    obtain ⟨hv, hs⟩ := hx
    subst hv
    subst hs
    rw [if_pos hp]

theorem Iterator.find_some_neg {σ α : Type} (I : Iter σ α) (p : α → Bool)
    {s s1 : σ} {v : α} (h : I.next s = (some v, s1)) (hp : ¬ p v) :
    Iterator.find I p s = Iterator.find I p s1 := by
  rw [Iterator.find.eq_def]
  split
  · rename_i s2 hx
    rw [h] at hx
    simp at hx
  · rename_i w s2 hx
    rw [h] at hx
    simp only [Prod.mk.injEq, Option.some.injEq] at hx
    obtain ⟨hv, hs⟩ := hx
    subst hv
    subst hs
    rw [if_neg hp]

theorem Iterator.fold_none {σ α β : Type} (I : Iter σ α) (init : β)
    (f : β → α → β) {s s1 : σ} (h : I.next s = (none, s1)) :
    Iterator.fold I init f s = init := by
  rw [Iterator.fold.eq_def]
  split
  · rfl
  · rename_i v s2 hx
    rw [h] at hx
    simp at hx

theorem Iterator.fold_some {σ α β : Type} (I : Iter σ α) (init : β)
    (f : β → α → β) {s s1 : σ} {x : α} (h : I.next s = (some x, s1)) :
    Iterator.fold I init f s = Iterator.fold I (f init x) f s1 := by
  rw [Iterator.fold.eq_def]
  split
  · rename_i s2 hx
    rw [h] at hx
    simp at hx
  · rename_i w s2 hx
    rw [h] at hx
    simp only [Prod.mk.injEq, Option.some.injEq] at hx
    obtain ⟨hv, hs⟩ := hx
    subst hv
    subst hs
    rfl

theorem Iter.toList_none {σ α : Type} (I : Iter σ α) {s s1 : σ}
    (h : I.next s = (none, s1)) : Iter.toList I s = [] := by
  rw [Iter.toList.eq_def]
  split
  · rfl
  · rename_i v s2 hx
    rw [h] at hx
    simp at hx

theorem Iter.toList_some {σ α : Type} (I : Iter σ α) {s s1 : σ} {a : α}
    (h : I.next s = (some a, s1)) : Iter.toList I s = a :: Iter.toList I s1 := by
  rw [Iter.toList.eq_def]
  split
  · rename_i s2 hx
    rw [h] at hx
    simp at hx
  · rename_i w s2 hx
    rw [h] at hx
    simp only [Prod.mk.injEq, Option.some.injEq] at hx
    obtain ⟨hv, hs⟩ := hx
    subst hv
    subst hs
    rfl

theorem MapIter.next_eq {σ α β : Type} (I : Iter σ α) (f : α → β) (s : σ) :
    MapIter.next I f s = (Option.map f (I.next s).1, (I.next s).2) := by
  unfold MapIter.next
  rcases hx : I.next s with ⟨o, s1⟩
  cases o <;> simp

theorem vecIter_next (α : Type) : (vecIter α).next = VecIterator.next := rfl

theorem vecIter_fused (α : Type) : (vecIter α).Fused := by
  intro s h
  rw [vecIter_next] at h ⊢
  by_cases hc : s.vec.vec.length ≤ s.idx
  · simp [VecIterator.next, dif_pos hc]
  · simp [VecIterator.next, dif_neg hc] at h

theorem Iter.toList_congr {σ α : Type} (F : Iter σ α) {x y : σ}
    (h : F.next x = F.next y) : F.toList x = F.toList y := by
  rcases hy : F.next y with ⟨o, t⟩
  rw [hy] at h
  cases o with
  | none => rw [Iter.toList_none F h, Iter.toList_none F hy]
  | some a => rw [Iter.toList_some F h, Iter.toList_some F hy]

/-- C4: over any cursor, `filter(p)` yields exactly the subsequence of the
upstream items satisfying `p`, in their original relative order, and then
exhausts: its item list is `List.filter p` of the upstream's item list. -/
theorem filter_yields_matching_subsequence {σ α : Type} (I : Iter σ α)
    (p : α → Bool) (s : σ) :
    Iter.toList (Iterator.filter I p) s = (Iter.toList I s).filter p := by
  induction s using Iter.toList.induct I with
  | case1 x s1 hx =>
    rw [Iter.toList_none (Iterator.filter I p) (Filter.next_none I p hx),
      Iter.toList_none I hx]
    rfl
  | case2 x a s1 hx ih =>
    by_cases hp : p a
    · rw [Iter.toList_some (Iterator.filter I p) (Filter.next_some_pos I p hx hp),
        Iter.toList_some I hx, ih]
      simp [List.filter_cons, hp]
    · rw [Iter.toList_congr (Iterator.filter I p)
        (Filter.next_some_neg I p hx hp : (Iterator.filter I p).next x = _),
        ih, Iter.toList_some I hx]
      simp [List.filter_cons, hp]

/-- C5: over any cursor, `map(f)` yields exactly the upstream items
transformed by `f`, in order, then exhausts; moreover each `MapIter::next`
pulls exactly one upstream item (its state is the upstream state after one
pull) and passes exhaustion through unchanged (`Option.map` of the upstream
result). -/
theorem map_yields_transformed_in_order {σ α β : Type} (I : Iter σ α)
    (f : α → β) (s : σ) :
    Iter.toList (Iterator.map I f) s = (Iter.toList I s).map f ∧
    ∀ t, MapIter.next I f t = (Option.map f (I.next t).1, (I.next t).2) := by
  constructor
  · induction s using Iter.toList.induct I with
    | case1 x s1 hx =>
      have hm : (Iterator.map I f).next x = (none, s1) := by
        show MapIter.next I f x = (none, s1)
        rw [MapIter.next_eq, hx]
        rfl
      rw [Iter.toList_none (Iterator.map I f) hm, Iter.toList_none I hx]
      rfl
    | case2 x a s1 hx ih =>
      have hm : (Iterator.map I f).next x = (some (f a), s1) := by
        show MapIter.next I f x = (some (f a), s1)
        rw [MapIter.next_eq, hx]
        rfl
      rw [Iter.toList_some (Iterator.map I f) hm, Iter.toList_some I hx, ih]
      rfl
  · exact MapIter.next_eq I f

/-- C7: `fold(init, f)` consumes the whole remaining cursor left to right,
returning the left fold of `f` over the yielded items starting from `init`
(so over zero items it returns `init` unchanged). -/
theorem fold_consumes_left_to_right {σ α β : Type} (I : Iter σ α) (init : β)
    (f : β → α → β) (s : σ) :
    Iterator.fold I init f s = (Iter.toList I s).foldl f init := by
  induction s using Iter.toList.induct I generalizing init with
  | case1 x s1 hx =>
    rw [Iterator.fold_none I init f hx, Iter.toList_none I hx]
    rfl
  | case2 x a s1 hx ih =>
    rw [Iterator.fold_some I init f hx, Iter.toList_some I hx, ih]
    rfl

theorem find_eq_filter_next {σ α : Type} (I : Iter σ α) (p : α → Bool)
    (s : σ) : Iterator.find I p s = Filter.next I p s := by
  induction s using Filter.next.induct I p with
  | case1 x s1 hx =>
    rw [Iterator.find_none I p hx, Filter.next_none I p hx]
  | case2 x v s1 hx hpv =>
    rw [Iterator.find_some_pos I p hx hpv, Filter.next_some_pos I p hx hpv]
  | case3 x v s1 hx hpv ih =>
    rw [Iterator.find_some_neg I p hx hpv, Filter.next_some_neg I p hx hpv, ih]

theorem find_fst {σ α : Type} (I : Iter σ α) (p : α → Bool) (s : σ) :
    (Iterator.find I p s).1 = (Iter.toList I s).find? p := by
  induction s using Iter.toList.induct I with
  | case1 x s1 hx =>
    rw [Iterator.find_none I p hx, Iter.toList_none I hx]
    rfl
  | case2 x a s1 hx ih =>
    by_cases hp : p a
    · rw [Iterator.find_some_pos I p hx hp, Iter.toList_some I hx,
        List.find?_cons_of_pos _ hp]
    · rw [Iterator.find_some_neg I p hx hp, Iter.toList_some I hx,
        List.find?_cons_of_neg _ hp, ih]

theorem find_snd {σ α : Type} (I : Iter σ α) (p : α → Bool) (hf : I.Fused)
    (s : σ) :
    Iter.toList I (Iterator.find I p s).2 =
      ((Iter.toList I s).dropWhile (fun a => !(p a))).drop 1 := by
  induction s using Iter.toList.induct I with
  | case1 x s1 hx =>
    have hs1 : s1 = x := by
      have h2 := hf x (by rw [hx])
      rwa [hx] at h2
    subst hs1
    rw [Iterator.find_none I p hx]
    simp [Iter.toList_none I hx]
  | case2 x a s1 hx ih =>
    by_cases hp : p a
    · rw [Iterator.find_some_pos I p hx hp, Iter.toList_some I hx]
      simp [List.dropWhile_cons, hp]
    · rw [Iterator.find_some_neg I p hx hp, Iter.toList_some I hx, ih]
      simp [List.dropWhile_cons, hp]

/-- C6: `find(p)` returns the first remaining item satisfying `p` (or `None`
if none does); it consumes the items up to and including the match, leaving
the cursor yielding exactly the items strictly after the match (or exhausted
when there is no match, given that the cursor has an idempotent exhausted
state); hence a second `find` on the same cursor resumes strictly after the
found position. -/
theorem find_first_match_and_resumption {σ α : Type} (I : Iter σ α)
    (p : α → Bool) (s : σ) (hf : I.Fused) :
    (Iterator.find I p s).1 = (Iter.toList I s).find? p ∧
    Iter.toList I (Iterator.find I p s).2 =
      ((Iter.toList I s).dropWhile (fun a => !(p a))).drop 1 ∧
    (Iterator.find I p (Iterator.find I p s).2).1 =
      (((Iter.toList I s).dropWhile (fun a => !(p a))).drop 1).find? p := by
  refine ⟨find_fst I p s, find_snd I p hf s, ?_⟩
  rw [find_fst I p _, find_snd I p hf s]

theorem find_first_match_and_resumption_witness :
    (Iterator.find (vecIter Nat) (fun v => v == 1)
        (⟨⟨[1, 2]⟩, 0⟩ : VecIterator Nat)).1 =
      (Iter.toList (vecIter Nat) (⟨⟨[1, 2]⟩, 0⟩ : VecIterator Nat)).find?
        (fun v => v == 1) ∧
    Iter.toList (vecIter Nat)
        (Iterator.find (vecIter Nat) (fun v => v == 1)
          (⟨⟨[1, 2]⟩, 0⟩ : VecIterator Nat)).2 =
      ((Iter.toList (vecIter Nat) (⟨⟨[1, 2]⟩, 0⟩ : VecIterator Nat)).dropWhile
          (fun a => !(a == 1))).drop 1 ∧
    (Iterator.find (vecIter Nat) (fun v => v == 1)
        (Iterator.find (vecIter Nat) (fun v => v == 1)
          (⟨⟨[1, 2]⟩, 0⟩ : VecIterator Nat)).2).1 =
      (((Iter.toList (vecIter Nat) (⟨⟨[1, 2]⟩, 0⟩ : VecIterator Nat)).dropWhile
          (fun a => !(a == 1))).drop 1).find? (fun v => v == 1) :=
  find_first_match_and_resumption (vecIter Nat) (fun v => v == 1)
    (⟨⟨[1, 2]⟩, 0⟩ : VecIterator Nat) (vecIter_fused Nat)

/-- C10: `Iterator::find(p)` computes exactly what one `next()` call on
`Filter::new(self, p)` computes: the same returned item and the same final
state of the underlying cursor. -/
theorem find_refines_filter_next {σ α : Type} (I : Iter σ α) (p : α → Bool)
    (s : σ) : Iterator.find I p s = Filter.next I p s :=
  find_eq_filter_next I p s

end LearnIter
